import Mathlib

/-!
# Verification of the clone/fetch progress-tracking core

A shallow embedding, in Lean 4, of the two source modules of this repository:

* the concurrent clone-operation registry (`CloningRepository`,
  `ICloningRepositoryState`, `CloningRepositoriesStore`), and
* the git fetch helpers (`getFetchArgs`, `fetch`, `fetchRefspec`,
  `fastForwardBranches`).

Modelling conventions:

* A JS `Map` is modelled as an association list.  `Map.set` prepends the new
  entry and drops any stale entry with the same key, `Map.delete` drops all
  entries with the key, so `get`/`has`/`delete` agree with JS `Map` semantics.
* A JS `Promise` chain `p.then(onFulfilled)` runs `onFulfilled` only when `p`
  resolves; when `p` rejects the handler is skipped and the rejection
  propagates.  Settlement of the external clone promise is therefore modelled
  as an explicit step taking the settlement outcome as a parameter.
* External collaborators (the external git process, the progress parsers, the
  network-argument provider, the feature flag) are modelled as parameters:
  their outputs are inputs of the embedded functions.
* Progress values (floats in [0,1] in the source) are modelled as rationals;
  none of the verified properties computes with them.
* Where character-level string processing matters (splitting, prefix tests)
  the TS string is modelled as its list of characters; where strings are
  opaque data (urls, paths, argument tokens) Lean `String` is used.
-/

/-! ## The clone registry (source file `part_000`)

`CloningRepositoryID` is a module-level counter starting at 1; it is part of
the registry state below (`nextId`). -/

/-- A repository which is currently being cloned: `id` is drawn from the
module-level `CloningRepositoryID` counter, `path` and `url` are the
constructor arguments. -/
structure CloningRepository where
  id : Nat
  path : String
  url : String
  deriving DecidableEq, Repr

/-- The cloning progress of a repository: the raw progress output and an
optional progress value (absence = indeterminate). -/
structure ICloningRepositoryState where
  output : String
  progressValue : Option ℚ
  deriving DecidableEq, Repr

/-- The observable state of `CloningRepositoriesStore` together with the
module-level id counter and a count of emitted `did-update` notifications. -/
structure CloningRepositoriesStore where
  nextId : Nat
  repositories : List CloningRepository
  stateByID : List (Nat × ICloningRepositoryState)
  updates : Nat
  deriving DecidableEq, Repr

namespace CloningRepositoriesStore

/-- The store as first constructed: empty list, empty map, counter at 1. -/
def initial : CloningRepositoriesStore :=
  { nextId := 1, repositories := [], stateByID := [], updates := 0 }

/-- JS `Map.set k v`: insert or replace the entry keyed `k`. -/
def mapSet (m : List (Nat × ICloningRepositoryState)) (k : Nat)
    (v : ICloningRepositoryState) : List (Nat × ICloningRepositoryState) :=
  (k, v) :: m.filter (fun e => e.1 != k)

/-- JS `Map.delete k`: drop the entry keyed `k`. -/
def mapDelete (m : List (Nat × ICloningRepositoryState)) (k : Nat) :
    List (Nat × ICloningRepositoryState) :=
  m.filter (fun e => e.1 != k)

/-- `this.emitter.emit('did-update', {})`: payload-free change notification. -/
def emitUpdate (s : CloningRepositoriesStore) : CloningRepositoriesStore :=
  { s with updates := s.updates + 1 }

/-- The synchronous part of `clone(url, path)`: construct a
`CloningRepository` (taking the next counter value), push it onto
`_repositories`, seed `stateByID` with the synthetic first line
`Cloning into ${path}`, and emit an update.  Returns the new repository
(captured by the progress callback and the `.then` handler) and the new
store state.  The asynchronous continuations are `cloneProgress` and
`cloneSettled` below. -/
def clone (url path : String) (s : CloningRepositoriesStore) :
    CloningRepository × CloningRepositoriesStore :=
  let repository : CloningRepository := { id := s.nextId, path := path, url := url }
  let s' := { s with
    nextId := s.nextId + 1,
    repositories := s.repositories ++ [repository],
    stateByID :=
      (mapSet s.stateByID repository.id ⟨"Cloning into " ++ path, none⟩) }
  (repository, emitUpdate s')

/-- The progress callback passed to `LocalGitOperations.clone`: store the
parsed progress (the external `CloneProgressParser.parse` result is the
`parsed` parameter; `null` becomes `none`) keyed by the captured
repository's id, then emit an update. -/
def cloneProgress (repository : CloningRepository) (progress : String)
    (parsed : Option ℚ) (s : CloningRepositoriesStore) : CloningRepositoriesStore :=
  let s' :=
    match parsed with
    | some progressValue =>
      { s with stateByID :=
          (mapSet s.stateByID repository.id ⟨progress, some progressValue⟩) }
    | none =>
      { s with stateByID :=
          (mapSet s.stateByID repository.id ⟨progress, none⟩) }
  emitUpdate s'

/-- `remove(repository)`: delete the state entry, splice out the first list
element with a matching id (if any), and emit an update. -/
def remove (repository : CloningRepository) (s : CloningRepositoriesStore) :
    CloningRepositoriesStore :=
  let stateByID := mapDelete s.stateByID repository.id
  let repositories :=
    match s.repositories.findIdx? (fun r => r.id == repository.id) with
    | some i => s.repositories.eraseIdx i
    | none => s.repositories
  emitUpdate { s with stateByID := stateByID, repositories := repositories }

/-- The `.then(() => this.remove(repository))` continuation of `clone`: when
the external clone promise resolves, `remove` runs; when it rejects, the
handler is skipped (no rejection handler is installed) and the store is
untouched. -/
def cloneSettled (repository : CloningRepository) (resolved : Bool)
    (s : CloningRepositoriesStore) : CloningRepositoriesStore :=
  if resolved then remove repository s else s

/-- `getRepositoryState(repository)`: map lookup, `null` for absence. -/
def getRepositoryState (s : CloningRepositoriesStore)
    (repository : CloningRepository) : Option ICloningRepositoryState :=
  s.stateByID.lookup repository.id

end CloningRepositoriesStore

/-! ## Helper lemmas -/

/-- `findIndex` followed by `splice(i, 1)` (and no change when the index is
`-1`) removes the first element satisfying the predicate, i.e. `eraseP`. -/
theorem findIdx_eraseIdx_eq_eraseP {α : Type} (p : α → Bool) (l : List α) :
    (match l.findIdx? p with
     | some i => l.eraseIdx i
     | none => l) = l.eraseP p := by
  induction l with
  | nil => rfl
  | cons a l ih =>
    by_cases h : p a
    · simp [List.findIdx?_cons, h]
    · rw [List.eraseP_cons_of_neg h]
      simp only [List.findIdx?_cons, h, if_false, List.findIdx?_succ]
      rw [← ih]
      cases hfind : l.findIdx? p with
      | none => simp [hfind]
      | some i => simp [hfind]

/-- With pairwise-distinct ids, erasing the first id-match leaves no further
id-match behind. -/
theorem eraseP_id_no_match {rid : Nat} {l : List CloningRepository}
    (hids : (l.map CloningRepository.id).Nodup) :
    ∀ b ∈ l.eraseP (fun r => r.id == rid), (b.id == rid) = false := by
  induction l with
  | nil => simp
  | cons a l ih =>
    simp only [List.map_cons, List.nodup_cons] at hids
    by_cases h : (a.id == rid) = true
    · rw [List.eraseP_cons_of_pos (p := fun r : CloningRepository => r.id == rid) h]
      intro b hb
      have hmem : b.id ∈ l.map CloningRepository.id := List.mem_map_of_mem _ hb
      have hne : a.id ≠ b.id := fun hc => hids.1 (hc ▸ hmem)
      simp only [beq_iff_eq] at h
      simp only [beq_eq_false_iff_ne]
      intro hc
      exact hne (by rw [h, hc])
    · rw [List.eraseP_cons_of_neg
        (p := fun r : CloningRepository => r.id == rid) (by simpa using h)]
      intro b hb
      rcases List.mem_cons.mp hb with rfl | hb2
      · simpa using h
      · exact ih hids.2 b hb2

namespace CloningRepositoriesStore

/-- The repository-list effect of `remove` is `eraseP` on id-match. -/
theorem remove_repositories (repository : CloningRepository)
    (s : CloningRepositoriesStore) :
    (s.remove repository).repositories =
      s.repositories.eraseP (fun r => r.id == repository.id) := by
  simp only [remove, emitUpdate]
  exact findIdx_eraseIdx_eq_eraseP _ _

/-- The state-map effect of `remove` is dropping the id's entries. -/
theorem remove_stateByID (repository : CloningRepository)
    (s : CloningRepositoriesStore) :
    (s.remove repository).stateByID =
      s.stateByID.filter (fun e => e.1 != repository.id) := by
  simp [remove, emitUpdate, mapDelete]

end CloningRepositoriesStore

/-! ## Claims about the registry's `remove` and `clone` -/

/-- C7: for every registry state (with the counter-assigned, hence pairwise
distinct, ids) and every operation argument — tracked or not — `remove`
emits exactly one change notification, is idempotent on the tracked
structures, and is a no-op on the structures when the operation is not
tracked.  (`remove` is a total function, so it cannot raise.) -/
theorem remove_idempotent_noop (s : CloningRepositoriesStore)
    (repository : CloningRepository)
    (hids : (s.repositories.map CloningRepository.id).Nodup) :
    (s.remove repository).updates = s.updates + 1 ∧
    ((s.remove repository).remove repository).stateByID
      = (s.remove repository).stateByID ∧
    ((s.remove repository).remove repository).repositories
      = (s.remove repository).repositories ∧
    ((∀ e ∈ s.stateByID, e.1 ≠ repository.id) →
      (s.remove repository).stateByID = s.stateByID) ∧
    ((∀ r ∈ s.repositories, r.id ≠ repository.id) →
      (s.remove repository).repositories = s.repositories) := by
  refine ⟨rfl, ?_, ?_, ?_, ?_⟩
  · rw [CloningRepositoriesStore.remove_stateByID,
      CloningRepositoriesStore.remove_stateByID]
    exact List.filter_eq_self.mpr (fun e he => (List.mem_filter.mp he).2)
  · rw [CloningRepositoriesStore.remove_repositories,
      CloningRepositoriesStore.remove_repositories]
    refine List.eraseP_of_forall_not ?_
    intro b hb
    simp only [eraseP_id_no_match hids b hb, Bool.false_eq_true, not_false_eq_true]
  · intro h
    rw [CloningRepositoriesStore.remove_stateByID]
    refine List.filter_eq_self.mpr ?_
    intro e he
    simpa using h e he
  · intro h
    rw [CloningRepositoriesStore.remove_repositories]
    refine List.eraseP_of_forall_not ?_
    intro r hr
    simpa using h r hr

/-- Witness for C7 at a concrete input: removing a never-registered
operation from the freshly constructed store leaves both structures
unchanged and bumps the notification count by exactly one. -/
theorem remove_idempotent_noop_witness :
    (CloningRepositoriesStore.initial.remove ⟨5, "p", "u"⟩).stateByID
      = CloningRepositoriesStore.initial.stateByID ∧
    (CloningRepositoriesStore.initial.remove ⟨5, "p", "u"⟩).repositories
      = CloningRepositoriesStore.initial.repositories ∧
    (CloningRepositoriesStore.initial.remove ⟨5, "p", "u"⟩).updates
      = CloningRepositoriesStore.initial.updates + 1 :=
  ⟨(remove_idempotent_noop CloningRepositoriesStore.initial ⟨5, "p", "u"⟩
      (by decide)).2.2.2.1 (by decide),
   (remove_idempotent_noop CloningRepositoriesStore.initial ⟨5, "p", "u"⟩
      (by decide)).2.2.2.2 (by decide),
   (remove_idempotent_noop CloningRepositoriesStore.initial ⟨5, "p", "u"⟩
      (by decide)).1⟩

/-- C9: two successive `clone` calls (the registry serializes the two
synchronous `start` bodies even when the clones run concurrently) draw
distinct ids from the monotonically increasing counter, both operations are
in the live list immediately afterwards, and each has its own independent
`ProgressState` entry seeded with its own path. -/
theorem clone_twice_distinct_ids (s : CloningRepositoriesStore)
    (u1 p1 u2 p2 : String) :
    ((s.clone u1 p1).1).id = s.nextId ∧
    (((s.clone u1 p1).2).clone u2 p2).1.id = s.nextId + 1 ∧
    ((s.clone u1 p1).1).id ≠ (((s.clone u1 p1).2).clone u2 p2).1.id ∧
    (((s.clone u1 p1).2).clone u2 p2).2.nextId = s.nextId + 2 ∧
    (s.clone u1 p1).1 ∈ (((s.clone u1 p1).2).clone u2 p2).2.repositories ∧
    (((s.clone u1 p1).2).clone u2 p2).1
      ∈ (((s.clone u1 p1).2).clone u2 p2).2.repositories ∧
    (((s.clone u1 p1).2).clone u2 p2).2.stateByID.lookup ((s.clone u1 p1).1).id
      = some ⟨"Cloning into " ++ p1, none⟩ ∧
    (((s.clone u1 p1).2).clone u2 p2).2.stateByID.lookup
        ((((s.clone u1 p1).2).clone u2 p2).1).id
      = some ⟨"Cloning into " ++ p2, none⟩ := by
  refine ⟨rfl, rfl, ?_, rfl, ?_, ?_, ?_, ?_⟩
  · show s.nextId ≠ s.nextId + 1
    omega
  · simp [CloningRepositoriesStore.clone, CloningRepositoriesStore.emitUpdate]
  · simp [CloningRepositoriesStore.clone, CloningRepositoriesStore.emitUpdate]
  · have hne : (s.nextId == s.nextId + 1) = false := by simp
    simp [CloningRepositoriesStore.clone, CloningRepositoriesStore.emitUpdate,
      CloningRepositoriesStore.mapSet, List.lookup, bne, hne]
  · simp [CloningRepositoriesStore.clone, CloningRepositoriesStore.emitUpdate,
      CloningRepositoriesStore.mapSet, List.lookup]

/-! ## Claim C1: settlement of the external clone promise -/

/-- C1 (code bug): the source chains `.then(() => this.remove(repository))`
with no rejection handler, so when the external clone promise rejects the
operation is NOT removed — its `Operation` stays in the live list, its
`ProgressState` stays in the map, and no final notification is emitted;
only a resolving promise triggers the removal.  Evaluated here at a
concrete rejected clone (and, for contrast, a resolved one). -/
theorem clone_rejection_leaves_operation_tracked :
    (CloningRepositoriesStore.cloneSettled
        (CloningRepositoriesStore.initial.clone "u" "p").1 false
        (CloningRepositoriesStore.initial.clone "u" "p").2).repositories
      = [⟨1, "p", "u"⟩] ∧
    (CloningRepositoriesStore.cloneSettled
        (CloningRepositoriesStore.initial.clone "u" "p").1 false
        (CloningRepositoriesStore.initial.clone "u" "p").2).stateByID
      = [(1, ⟨"Cloning into " ++ "p", none⟩)] ∧
    (CloningRepositoriesStore.cloneSettled
        (CloningRepositoriesStore.initial.clone "u" "p").1 false
        (CloningRepositoriesStore.initial.clone "u" "p").2).updates
      = (CloningRepositoriesStore.initial.clone "u" "p").2.updates ∧
    (CloningRepositoriesStore.cloneSettled
        (CloningRepositoriesStore.initial.clone "u" "p").1 true
        (CloningRepositoriesStore.initial.clone "u" "p").2).repositories = [] ∧
    (CloningRepositoriesStore.cloneSettled
        (CloningRepositoriesStore.initial.clone "u" "p").1 true
        (CloningRepositoriesStore.initial.clone "u" "p").2).stateByID = [] :=
  ⟨rfl, rfl, rfl, rfl, rfl⟩

/-! ## Claim C4: the list/map agreement invariant -/

/-- One externally triggerable mutation of the registry: a `clone` call, a
progress callback firing for a previously created operation, or a `remove`
call. -/
inductive RegistryStep
  | stepClone (url path : String)
  | stepProgress (repository : CloningRepository) (line : String) (parsed : Option ℚ)
  | stepRemove (repository : CloningRepository)
  deriving DecidableEq, Repr

/-- Apply one registry step to the store state. -/
def applyStep (s : CloningRepositoriesStore) : RegistryStep → CloningRepositoriesStore
  | .stepClone url path => (s.clone url path).2
  | .stepProgress repository line parsed => s.cloneProgress repository line parsed
  | .stepRemove repository => s.remove repository

/-- Run a sequence of registry steps from a starting state. -/
def runSteps (s : CloningRepositoriesStore) (steps : List RegistryStep) :
    CloningRepositoriesStore :=
  steps.foldl applyStep s

/-- The claimed invariant: every id in the state map has a corresponding
operation in the live list, and vice versa. -/
def Consistent (s : CloningRepositoriesStore) : Prop :=
  (∀ e ∈ s.stateByID, ∃ r ∈ s.repositories, r.id = e.1) ∧
  (∀ r ∈ s.repositories, ∃ e ∈ s.stateByID, e.1 = r.id)

/-- A progress-callback step is `live` when its operation is still in the
live list; clone and remove steps are unrestricted. -/
def stepLive (s : CloningRepositoriesStore) : RegistryStep → Bool
  | .stepProgress repository _ _ =>
    s.repositories.any (fun r => r.id == repository.id)
  | _ => true

/-- Every step of the sequence is live at the state where it fires. -/
def runLive : CloningRepositoriesStore → List RegistryStep → Bool
  | _, [] => true
  | s, st :: rest => stepLive s st && runLive (applyStep s st) rest

/-- C4 counterexample: the literal claim quantifies over *every* sequence of
clone, progress-callback and remove steps.  Removal does not abort the
running external process, so the captured progress callback can fire after
its operation was removed (clone; external remove; late progress line):
`Map.set` then re-inserts a `ProgressState` for an operation no longer in
the live list, breaking the invariant in a stable state (not during the
atomic remove). -/
theorem registry_invariant_broken_by_late_progress :
    ¬ Consistent (runSteps CloningRepositoriesStore.initial
      [RegistryStep.stepClone "u" "p",
       RegistryStep.stepRemove ⟨1, "p", "u"⟩,
       RegistryStep.stepProgress ⟨1, "p", "u"⟩ "line" none]) := by
  intro h
  obtain ⟨r, hr, _⟩ := h.1 (1, ⟨"line", none⟩) (by
    show (1, (⟨"line", none⟩ : ICloningRepositoryState)) ∈
      [(1, (⟨"line", none⟩ : ICloningRepositoryState))]
    exact List.mem_singleton.mpr rfl)
  exact absurd hr (by
    show r ∉ ([] : List CloningRepository)
    exact List.not_mem_nil r)

/-- One live step preserves the invariant together with the auxiliary
counter facts (ids pairwise distinct and below the counter). -/
theorem applyStep_preserves (s : CloningRepositoriesStore) (st : RegistryStep)
    (hids : (s.repositories.map CloningRepository.id).Nodup)
    (hlt : ∀ r ∈ s.repositories, r.id < s.nextId)
    (hcons : Consistent s)
    (hlive : stepLive s st = true) :
    Consistent (applyStep s st) ∧
    ((applyStep s st).repositories.map CloningRepository.id).Nodup ∧
    (∀ r ∈ (applyStep s st).repositories, r.id < (applyStep s st).nextId) := by
  obtain ⟨hc1, hc2⟩ := hcons
  cases st with
  | stepClone url path =>
    simp only [applyStep, CloningRepositoriesStore.clone,
      CloningRepositoriesStore.emitUpdate, CloningRepositoriesStore.mapSet,
      Consistent]
    refine ⟨⟨?_, ?_⟩, ?_, ?_⟩
    · intro e he
      rcases List.mem_cons.mp he with heq | he2
      · subst heq
        exact ⟨⟨s.nextId, path, url⟩, by simp, rfl⟩
      · obtain ⟨r, hr, hrid⟩ := hc1 e (List.mem_of_mem_filter he2)
        exact ⟨r, by simp [hr], hrid⟩
    · intro r hr
      rcases List.mem_append.mp hr with hr1 | hr2
      · obtain ⟨e, he, heid⟩ := hc2 r hr1
        by_cases hkey : e.1 = s.nextId
        · exact ⟨(s.nextId, ⟨"Cloning into " ++ path, none⟩), by simp,
            by simp [← heid, hkey]⟩
        · refine ⟨e, List.mem_cons_of_mem _ (List.mem_filter.mpr ⟨he, ?_⟩), heid⟩
          simpa using hkey
      · refine ⟨(s.nextId, ⟨"Cloning into " ++ path, none⟩), by simp, ?_⟩
        simp only [List.mem_singleton.mp hr2]
    · rw [List.map_append]
      refine List.Nodup.append hids (by simp) ?_
      intro a ha hb
      simp only [List.map_cons, List.map_nil, List.mem_singleton] at hb
      subst hb
      obtain ⟨r, hr, hrid⟩ := List.mem_map.mp ha
      have := hlt r hr
      omega
    · intro r hr
      rcases List.mem_append.mp hr with hr1 | hr2
      · have := hlt r hr1
        omega
      · simp only [List.mem_singleton.mp hr2]
        omega
  | stepProgress repository line parsed =>
    have hmem : ∃ r ∈ s.repositories, r.id = repository.id := by
      simpa [stepLive] using hlive
    have key : ∀ (v : ICloningRepositoryState),
        (∀ e ∈ CloningRepositoriesStore.mapSet s.stateByID repository.id v,
          ∃ r ∈ s.repositories, r.id = e.1) ∧
        (∀ r ∈ s.repositories,
          ∃ e ∈ CloningRepositoriesStore.mapSet s.stateByID repository.id v,
            e.1 = r.id) := by
      intro v
      constructor
      · intro e he
        rcases List.mem_cons.mp he with heq | he2
        · subst heq
          exact hmem
        · exact hc1 e (List.mem_of_mem_filter he2)
      · intro r hr
        obtain ⟨e, he, heid⟩ := hc2 r hr
        by_cases hkey : e.1 = repository.id
        · exact ⟨(repository.id, v), by simp [CloningRepositoriesStore.mapSet],
            by rw [← heid, hkey]⟩
        · refine ⟨e, ?_, heid⟩
          simp only [CloningRepositoriesStore.mapSet]
          exact List.mem_cons_of_mem _ (List.mem_filter.mpr ⟨he, by simpa using hkey⟩)
    cases parsed with
    | some q =>
      exact ⟨⟨(key ⟨line, some q⟩).1, (key ⟨line, some q⟩).2⟩, hids, hlt⟩
    | none =>
      exact ⟨⟨(key ⟨line, none⟩).1, (key ⟨line, none⟩).2⟩, hids, hlt⟩
  | stepRemove repository =>
    have hrepos : (applyStep s (RegistryStep.stepRemove repository)).repositories
        = s.repositories.eraseP (fun r => r.id == repository.id) :=
      CloningRepositoriesStore.remove_repositories repository s
    have hstate : (applyStep s (RegistryStep.stepRemove repository)).stateByID
        = s.stateByID.filter (fun e => e.1 != repository.id) :=
      CloningRepositoriesStore.remove_stateByID repository s
    have hnext : (applyStep s (RegistryStep.stepRemove repository)).nextId
        = s.nextId := rfl
    refine ⟨⟨?_, ?_⟩, ?_, ?_⟩
    · intro e he
      rw [hstate] at he
      have hin : e ∈ s.stateByID := List.mem_of_mem_filter he
      have hne : e.1 ≠ repository.id := by
        have := (List.mem_filter.mp he).2
        simpa using this
      obtain ⟨r, hr, hrid⟩ := hc1 e hin
      refine ⟨r, ?_, hrid⟩
      rw [hrepos]
      have hnotp : ¬ ((fun x : CloningRepository => x.id == repository.id) r = true) := by
        simp only [beq_iff_eq]
        rw [hrid]
        exact hne
      exact (List.mem_eraseP_of_neg
        (p := fun x : CloningRepository => x.id == repository.id)
        (a := r) (l := s.repositories) hnotp).mpr hr
    · intro r hr
      rw [hrepos] at hr
      have hin : r ∈ s.repositories := List.mem_of_mem_eraseP hr
      have hne : (r.id == repository.id) = false := eraseP_id_no_match hids r hr
      obtain ⟨e, he, heid⟩ := hc2 r hin
      refine ⟨e, ?_, heid⟩
      rw [hstate]
      refine List.mem_filter.mpr ⟨he, ?_⟩
      simp only [heid, bne, hne, Bool.not_false]
    · rw [hrepos]
      exact ((s.repositories.eraseP_sublist).map CloningRepository.id).nodup hids
    · intro r hr
      rw [hrepos] at hr
      rw [hnext]
      exact hlt r (List.mem_of_mem_eraseP hr)

/-- C4 (amended): the list/map agreement invariant holds after every
sequence of clone, progress-callback and remove steps in which each
progress callback fires while its operation is still in the live list
(the situation the un-amended claim fails on is a progress callback firing
after its operation was removed, see the counterexample above).  The
auxiliary hypotheses `hids`/`hlt` record what the monotone id counter
guarantees for every reachable state. -/
theorem registry_invariant_preserved (s : CloningRepositoriesStore)
    (steps : List RegistryStep)
    (hids : (s.repositories.map CloningRepository.id).Nodup)
    (hlt : ∀ r ∈ s.repositories, r.id < s.nextId)
    (hcons : Consistent s)
    (hlive : runLive s steps = true) :
    Consistent (runSteps s steps) := by
  induction steps generalizing s with
  | nil => exact hcons
  | cons st rest ih =>
    rw [runLive] at hlive
    obtain ⟨hl1, hl2⟩ := Bool.and_eq_true_iff.mp hlive
    obtain ⟨hc', hids', hlt'⟩ := applyStep_preserves s st hids hlt hcons hl1
    exact ih (applyStep s st) hids' hlt' hc' hl2

/-- Witness for C4 (amended) at a concrete run: clone, then a progress line
for the live operation, then its removal. -/
theorem registry_invariant_preserved_witness :
    Consistent (runSteps CloningRepositoriesStore.initial
      [RegistryStep.stepClone "u" "p",
       RegistryStep.stepProgress ⟨1, "p", "u"⟩ "line" (some (1/2)),
       RegistryStep.stepRemove ⟨1, "p", "u"⟩]) :=
  registry_invariant_preserved CloningRepositoriesStore.initial
    [RegistryStep.stepClone "u" "p",
     RegistryStep.stepProgress ⟨1, "p", "u"⟩ "line" (some (1/2)),
     RegistryStep.stepRemove ⟨1, "p", "u"⟩]
    (by decide) (by decide) ⟨by decide, by decide⟩ (by decide)

/-! ## The fetch helpers (source file `src/app/src/lib/git/fetch.ts`) -/

/-- `getFetchArgs`: the `git fetch` argument vector.  `networkArguments`
comes from the external `gitNetworkArguments` collaborator,
`recurseSubmodulesFlag` is the external `enableRecurseSubmodulesFlag()`
feature toggle, and `progressCallback` records whether a progress callback
was supplied (`progressCallback != null`). -/
def getFetchArgs (networkArguments : List String) (remote : String)
    (progressCallback : Bool) (recurseSubmodulesFlag : Bool) : List String :=
  if recurseSubmodulesFlag then
    if progressCallback then
      networkArguments ++
        ["fetch", "--progress", "--prune", "--recurse-submodules=on-demand", remote]
    else
      networkArguments ++
        ["fetch", "--prune", "--recurse-submodules=on-demand", remote]
  else
    if progressCallback then
      networkArguments ++ ["fetch", "--progress", "--prune", remote]
    else
      networkArguments ++ ["fetch", "--prune", remote]

/-- The rejection payload of the external git runner. -/
structure GitError where
  exitCode : Nat
  deriving DecidableEq, Repr

/-- Modelled from the spec: the external `git` runner (`core.ts` is not part
of these sources) resolves when the process exit code is in the declared
`successExitCodes` set and rejects with an external-process error otherwise
(spec §4.4: fail if the exit code is not in the operation's declared
allowed set). -/
def gitRun (successExitCodes : List Nat) (exitCode : Nat) : Except GitError Unit :=
  if exitCode ∈ successExitCodes then Except.ok () else Except.error ⟨exitCode⟩

/-- `fetchRefspec`'s argument vector: the network arguments, then `fetch`,
then the remote name, then the explicit refspec. -/
def fetchRefspecArgs (networkArguments : List String)
    (remoteName refspec : String) : List String :=
  networkArguments ++ ["fetch", remoteName, refspec]

/-- `fetchRefspec`'s declared allowed exit codes (`new Set([0, 128])`). -/
def fetchRefspecSuccessExitCodes : List Nat := [0, 128]

/-- `fetchRefspec` as observed for a given process exit code: the argument
vector it passes to the runner and the settlement of the returned promise. -/
def fetchRefspec (networkArguments : List String) (remoteName refspec : String)
    (exitCode : Nat) : List String × Except GitError Unit :=
  (fetchRefspecArgs networkArguments remoteName refspec,
   gitRun fetchRefspecSuccessExitCodes exitCode)

/-- C5: `fetchRefspec` appends exactly `fetch`, the remote name and the
refspec after the network arguments — in particular neither `--prune` nor
`--progress` (assuming the external network arguments and the caller's
names are not themselves those flag strings) — and resolves successfully
for exit codes 0 and 128. -/
theorem fetchRefspec_args_and_allowed_exits (na : List String)
    (remoteName refspec : String)
    (hna : "--prune" ∉ na ∧ "--progress" ∉ na)
    (hr : remoteName ≠ "--prune" ∧ remoteName ≠ "--progress")
    (hf : refspec ≠ "--prune" ∧ refspec ≠ "--progress") :
    fetchRefspecArgs na remoteName refspec
      = na ++ ["fetch", remoteName, refspec] ∧
    "--prune" ∉ fetchRefspecArgs na remoteName refspec ∧
    "--progress" ∉ fetchRefspecArgs na remoteName refspec ∧
    (fetchRefspec na remoteName refspec 0).2 = Except.ok () ∧
    (fetchRefspec na remoteName refspec 128).2 = Except.ok () := by
  refine ⟨rfl, ?_, ?_,
    show gitRun fetchRefspecSuccessExitCodes 0 = Except.ok () by
      simp [gitRun, fetchRefspecSuccessExitCodes],
    show gitRun fetchRefspecSuccessExitCodes 128 = Except.ok () by
      simp [gitRun, fetchRefspecSuccessExitCodes]⟩
  · simp [fetchRefspecArgs, hna.1, Ne.symm hr.1, Ne.symm hf.1]
  · simp [fetchRefspecArgs, hna.2, Ne.symm hr.2, Ne.symm hf.2]

/-- Witness for C5 at a concrete call: exit code 128 resolves and the
argument vector carries no prune or progress flag. -/
theorem fetchRefspec_args_and_allowed_exits_witness :
    (fetchRefspec [] "origin" "refs/heads/x" 128).2 = Except.ok () ∧
    "--prune" ∉ fetchRefspecArgs [] "origin" "refs/heads/x" ∧
    "--progress" ∉ fetchRefspecArgs [] "origin" "refs/heads/x" :=
  ⟨(fetchRefspec_args_and_allowed_exits [] "origin" "refs/heads/x"
      (by decide) (by decide) (by decide)).2.2.2.2,
   (fetchRefspec_args_and_allowed_exits [] "origin" "refs/heads/x"
      (by decide) (by decide) (by decide)).2.1,
   (fetchRefspec_args_and_allowed_exits [] "origin" "refs/heads/x"
      (by decide) (by decide) (by decide)).2.2.1⟩

/-- C6: `getFetchArgs` always contains `--prune`; contains `--progress` iff
a progress callback was supplied; contains the submodule recursion flag iff
the feature toggle is on; lists `--progress` immediately before the
submodule flag when both are present; and always ends with the remote name
(assuming the external network arguments do not themselves contain the two
conditional flags, and the remote name is not one of them). -/
theorem getFetchArgs_flags (na : List String) (remote : String)
    (pc sub : Bool)
    (hp : "--progress" ∉ na) (hs : "--recurse-submodules=on-demand" ∉ na)
    (hrp : remote ≠ "--progress")
    (hrs : remote ≠ "--recurse-submodules=on-demand") :
    "--prune" ∈ getFetchArgs na remote pc sub ∧
    ("--progress" ∈ getFetchArgs na remote pc sub ↔ pc = true) ∧
    ("--recurse-submodules=on-demand" ∈ getFetchArgs na remote pc sub
      ↔ sub = true) ∧
    (pc = true → sub = true →
      getFetchArgs na remote pc sub =
        na ++ ["fetch", "--progress", "--prune",
          "--recurse-submodules=on-demand", remote]) ∧
    (getFetchArgs na remote pc sub).getLast? = some remote := by
  cases pc <;> cases sub <;>
    simp [getFetchArgs, hp, hs, Ne.symm hrp, Ne.symm hrs,
      List.getLast?_append]

/-- Witness for C6 at a concrete call with both toggles on. -/
theorem getFetchArgs_flags_witness :
    "--prune" ∈ getFetchArgs [] "origin" true true ∧
    "--progress" ∈ getFetchArgs [] "origin" true true ∧
    getFetchArgs [] "origin" true true =
      [] ++ ["fetch", "--progress", "--prune",
        "--recurse-submodules=on-demand", "origin"] ∧
    (getFetchArgs [] "origin" true true).getLast? = some "origin" :=
  ⟨(getFetchArgs_flags [] "origin" true true (by decide) (by decide)
      (by decide) (by decide)).1,
   ((getFetchArgs_flags [] "origin" true true (by decide) (by decide)
      (by decide) (by decide)).2.1).mpr rfl,
   (getFetchArgs_flags [] "origin" true true (by decide) (by decide)
      (by decide) (by decide)).2.2.2.1 rfl rfl,
   (getFetchArgs_flags [] "origin" true true (by decide) (by decide)
      (by decide) (by decide)).2.2.2.2⟩

/-! ## `fetch` and its progress stream -/

/-- A parsed line of the fetch progress stream as delivered by the external
`FetchProgressParser`: step-progress lines (kind `progress`, carrying the
step's detail text) and unrecognized diagnostic lines (kind `context`,
carrying the raw text).  Text is a character list so the prefix test can be
evaluated. -/
inductive GitOutputEvent
  | progress (detailsText : List Char) (percent : ℚ)
  | context (text : List Char) (percent : ℚ)
  deriving DecidableEq, Repr

/-- A progress event delivered to `fetch`'s caller-supplied callback:
`{ kind, title, description, value, remote }`; the initial event carries no
description. -/
structure IFetchProgress where
  kind : String
  title : String
  description : Option (List Char)
  value : ℚ
  remote : String
  deriving DecidableEq, Repr

/-- The stream callback `fetch` installs via
`executionOptionsWithProgress`: a `context` line is dropped unless its text
starts with `remote: Counting objects`; every other line kind is forwarded,
with the step detail text as description for `progress` lines and the raw
text otherwise, and the parsed percentage as value. -/
def fetchProgressFilter (remoteName : String) (e : GitOutputEvent) :
    Option IFetchProgress :=
  match e with
  | .context text percent =>
    if ("remote: Counting objects".toList).isPrefixOf text then
      some ⟨"fetch", "Fetching " ++ remoteName, some text, percent, remoteName⟩
    else
      none
  | .progress detailsText percent =>
    some ⟨"fetch", "Fetching " ++ remoteName, some detailsText, percent, remoteName⟩

/-- An externally observable action of `fetch`, in program order. -/
inductive FetchAction
  | callbackInvoked (p : IFetchProgress)
  | gitStarted (args : List String)
  deriving DecidableEq, Repr

/-- The observable action trace of `fetch`: with a progress callback
supplied, the filtering stream sink is installed, the initial `value 0`
event is delivered to the callback, and only then is git started (with the
`--progress` argument vector); each parser event of the stream is filtered
and forwarded during the run.  Without a callback, git is simply started
without `--progress` and no parser is installed. -/
def fetchActions (networkArguments : List String) (remoteName : String)
    (recurseSubmodulesFlag : Bool) (progressCallback : Bool)
    (stream : List GitOutputEvent) : List FetchAction :=
  if progressCallback then
    FetchAction.callbackInvoked
        ⟨"fetch", "Fetching " ++ remoteName, none, 0, remoteName⟩
      :: FetchAction.gitStarted
          (getFetchArgs networkArguments remoteName true recurseSubmodulesFlag)
      :: (stream.filterMap (fetchProgressFilter remoteName)).map
          FetchAction.callbackInvoked
  else
    [FetchAction.gitStarted
      (getFetchArgs networkArguments remoteName false recurseSubmodulesFlag)]

/-- C8: a `context` line is dropped from the progress stream exactly when
its text does not start with `remote: Counting objects`; a suppressed
prefix-bearing `context` line and every `progress` line are forwarded to
the callback with the raw text (resp. the step detail text) as description
and the parsed percentage as value. -/
theorem fetch_context_suppression (remoteName : String)
    (text detailsText : List Char) (percent : ℚ) :
    (fetchProgressFilter remoteName (GitOutputEvent.context text percent) = none
      ↔ ("remote: Counting objects".toList).isPrefixOf text = false) ∧
    fetchProgressFilter remoteName (GitOutputEvent.progress detailsText percent)
      = some ⟨"fetch", "Fetching " ++ remoteName, some detailsText,
          percent, remoteName⟩ ∧
    (("remote: Counting objects".toList).isPrefixOf text = true →
      fetchProgressFilter remoteName (GitOutputEvent.context text percent)
        = some ⟨"fetch", "Fetching " ++ remoteName, some text,
            percent, remoteName⟩) := by
  refine ⟨?_, rfl, ?_⟩
  · cases h : ("remote: Counting objects".toList).isPrefixOf text with
    | true =>
      simp only [fetchProgressFilter, h]
      simp
    | false =>
      simp only [fetchProgressFilter, h]
      simp
  · intro h
    simp only [fetchProgressFilter, h]
    simp

/-- Witness for C8 at concrete lines: the object-counting notice passes,
another context line is dropped, a progress line passes. -/
theorem fetch_context_suppression_witness :
    fetchProgressFilter "origin"
        (GitOutputEvent.context "remote: Counting objects: 5".toList 0)
      = some ⟨"fetch", "Fetching " ++ "origin",
          some "remote: Counting objects: 5".toList, 0, "origin"⟩ ∧
    fetchProgressFilter "origin"
        (GitOutputEvent.context "remote: Compressing objects: 50%".toList 0)
      = none :=
  ⟨(fetch_context_suppression "origin" "remote: Counting objects: 5".toList
      [] 0).2.2 (by decide),
   (fetch_context_suppression "origin" "remote: Compressing objects: 50%".toList
      [] 0).1.mpr (by decide)⟩

/-- C10: whenever `fetch` runs with a progress callback supplied, the very
first observable action is a callback invocation with the initial progress
event — value 0, the fetch kind, the `Fetching <remote>` title and the
remote name — and the external git process is started only after it (it is
the second action in the trace). -/
theorem fetch_initial_progress_event (na : List String) (remoteName : String)
    (sub : Bool) (stream : List GitOutputEvent) :
    (fetchActions na remoteName sub true stream).head? =
      some (FetchAction.callbackInvoked
        ⟨"fetch", "Fetching " ++ remoteName, none, 0, remoteName⟩) ∧
    (fetchActions na remoteName sub true stream).tail.head? =
      some (FetchAction.gitStarted (getFetchArgs na remoteName true sub)) ∧
    (fetchActions na remoteName sub true stream) =
      FetchAction.callbackInvoked
          ⟨"fetch", "Fetching " ++ remoteName, none, 0, remoteName⟩
        :: FetchAction.gitStarted (getFetchArgs na remoteName true sub)
        :: (stream.filterMap (fetchProgressFilter remoteName)).map
            FetchAction.callbackInvoked :=
  ⟨rfl, rfl, rfl⟩

/-! ## `fastForwardBranches` and its output parsing

The external invocation (`git -c fetch.output=full -c core.abbrev=40 fetch .
--show-forced-updates -v <upstream:local pairs>`, allowed exit codes
`{0, 1}`) is an external collaborator; what is embedded is the parsing of
its `combinedOutput` and the final filtering of the caller's branch list.
TS strings are modelled as character lists here. -/

/-- A branch as consumed by `fastForwardBranches`: its short name (compared
against output tokens) and its upstream. -/
structure Branch where
  name : List Char
  upstream : List Char
  deriving DecidableEq, Repr

/-- JS `text.split(c)` for a one-character separator: empty pieces between
adjacent separators are kept, the result is never empty. -/
def splitOnChar (c : Char) : List Char → List (List Char)
  | [] => [[]]
  | a :: rest =>
    if a = c then [] :: splitOnChar c rest
    else
      match splitOnChar c rest with
      | t :: ts => (a :: t) :: ts
      | [] => [[a]]

/-- JS `text.split('..')`: leftmost, non-overlapping splitting on the
two-character range separator. -/
def splitOnDotDot : List Char → List (List Char)
  | '.' :: '.' :: rest => [] :: splitOnDotDot rest
  | a :: rest =>
    match splitOnDotDot rest with
    | t :: ts => (a :: t) :: ts
    | [] => [[a]]
  | [] => [[]]

/-- The tokens of one output line:
`line.split(' ').filter(piece => piece.length > 0)`. -/
def linePieces (line : List Char) : List (List Char) :=
  (splitOnChar ' ' line).filter (fun piece => decide (0 < piece.length))

/-- The loop body of `fastForwardBranches` for one line: skip the line when
it has no pieces (`pieces.length === 0`) or its first piece carries no `..`
(`pieces[0].indexOf('..') < 0`); otherwise produce the pair of the line's
last piece (the branch name) and `pieces[0].split('..')[1]` (the new target
id). -/
def parseUpdateLine (line : List Char) : Option (List Char × List Char) :=
  match linePieces line with
  | [] => none
  | p0 :: rest =>
    match splitOnDotDot p0 with
    | _ :: t :: _ => some ((p0 :: rest).getLast (List.cons_ne_nil p0 rest), t)
    | _ => none

/-- The lines `fastForwardBranches` iterates over: split the combined output
on newlines, then `splice(0, 1)` (drop the `From .` header) and
`splice(-1, 1)` (drop the trailing element after the final newline). -/
def ffLines (combinedOutput : List Char) : List (List Char) :=
  ((splitOnChar '\n' combinedOutput).drop 1).dropLast

/-- The `updatedBranches` map accumulated by the loop, as an association
list: each `Map.set` prepends its entry, so `List.lookup` (first match)
returns the most recently set value and key membership agrees with
`Map.has`. -/
def updatedBranches (combinedOutput : List Char) :
    List (List Char × List Char) :=
  (ffLines combinedOutput).foldl
    (fun m line =>
      match parseUpdateLine line with
      | some entry => entry :: m
      | none => m) []

/-- The return value of `fastForwardBranches` for a given combined output:
`branches.filter(branch => updatedBranches.has(branch.name))`. -/
def fastForwardBranches (combinedOutput : List Char)
    (branches : List Branch) : List Branch :=
  branches.filter (fun branch =>
    (updatedBranches combinedOutput).any (fun e => e.1 == branch.name))

/-- Unrolling the accumulation loop: the association list is the reversed
`filterMap` of the per-line parser over the processed lines. -/
theorem foldl_parse_eq (lines : List (List Char))
    (m : List (List Char × List Char)) :
    lines.foldl
      (fun m line =>
        match parseUpdateLine line with
        | some entry => entry :: m
        | none => m) m
      = (lines.filterMap parseUpdateLine).reverse ++ m := by
  induction lines generalizing m with
  | nil => simp
  | cons line rest ih =>
    rw [List.foldl_cons, ih]
    cases h : parseUpdateLine line with
    | none => simp [h]
    | some entry => simp [h]

/-- The accumulated map, closed form. -/
theorem updatedBranches_eq (combinedOutput : List Char) :
    updatedBranches combinedOutput
      = ((ffLines combinedOutput).filterMap parseUpdateLine).reverse := by
  rw [updatedBranches, foldl_parse_eq, List.append_nil]

/-- `Map.has name` holds exactly when some processed line parses to an
update of `name`. -/
theorem updatedBranches_any_iff (combinedOutput : List Char)
    (name : List Char) :
    ((updatedBranches combinedOutput).any (fun e => e.1 == name) = true) ↔
      ∃ line ∈ ffLines combinedOutput, ∃ t,
        parseUpdateLine line = some (name, t) := by
  rw [updatedBranches_eq]
  simp only [List.any_reverse, List.any_eq_true]
  constructor
  · rintro ⟨e, he, heq⟩
    obtain ⟨line, hline, hparse⟩ := List.mem_filterMap.mp he
    have he1 : e.1 = name := by simpa using heq
    refine ⟨line, hline, e.2, ?_⟩
    rw [hparse, ← he1]
  · rintro ⟨line, hline, t, hparse⟩
    exact ⟨(name, t), List.mem_filterMap.mpr ⟨line, hline, hparse⟩, by simp⟩

/-- A successful association-list lookup locates its entry. -/
theorem lookup_mem {m : List (List Char × List Char)} {k t : List Char}
    (h : m.lookup k = some t) : (k, t) ∈ m := by
  obtain ⟨l₁, l₂, hm, _⟩ := List.lookup_eq_some_iff.mp h
  rw [hm]
  simp

/-- C2: `fastForwardBranches` returns exactly the requested branches whose
name is the last whitespace-delimited token of a processed output line
whose first token contains `..` (the set of keys the loop accumulates), as
a sublist of the caller's list (original ordering preserved), and for each
returned branch the accumulated map holds its new target id — the text
after the `..` of the first token of such a line. -/
theorem fastForwardBranches_characterization (combinedOutput : List Char)
    (branches : List Branch) :
    List.Sublist (fastForwardBranches combinedOutput branches) branches ∧
    (∀ b, b ∈ fastForwardBranches combinedOutput branches ↔
      (b ∈ branches ∧ ∃ line ∈ ffLines combinedOutput, ∃ t,
        parseUpdateLine line = some (b.name, t))) ∧
    (∀ b ∈ fastForwardBranches combinedOutput branches,
      ∃ t, (updatedBranches combinedOutput).lookup b.name = some t ∧
        ∃ line ∈ ffLines combinedOutput,
          parseUpdateLine line = some (b.name, t)) := by
  refine ⟨List.filter_sublist _, ?_, ?_⟩
  · intro b
    rw [fastForwardBranches, List.mem_filter, updatedBranches_any_iff]
  · intro b hb
    have h2 := (List.mem_filter.mp hb).2
    have hsome : ((updatedBranches combinedOutput).lookup b.name).isSome := by
      rw [List.lookup_isSome_iff]
      obtain ⟨e, he, heq⟩ := List.any_eq_true.mp h2
      have he1 : e.1 = b.name := by simpa using heq
      exact ⟨e, he, by simp [he1]⟩
    obtain ⟨t, ht⟩ := Option.isSome_iff_exists.mp hsome
    refine ⟨t, ht, ?_⟩
    have hmem : (b.name, t) ∈ updatedBranches combinedOutput := lookup_mem ht
    rw [updatedBranches_eq, List.mem_reverse] at hmem
    obtain ⟨line, hline, hparse⟩ := List.mem_filterMap.mp hmem
    exact ⟨line, hline, hparse⟩

/-- Witness for C2 at a concrete output: `main` is returned, and the map
pairs it with a new target id produced by a processed update line. -/
theorem fastForwardBranches_characterization_witness :
    (⟨"main".toList, "origin/main".toList⟩ : Branch) ∈
      fastForwardBranches
        ("From .\n1111111..2222222  refs/heads/main  main\n".toList)
        [⟨"main".toList, "origin/main".toList⟩] ∧
    (∃ t, (updatedBranches
        ("From .\n1111111..2222222  refs/heads/main  main\n".toList)).lookup
          "main".toList = some t ∧
      ∃ line ∈ ffLines
          ("From .\n1111111..2222222  refs/heads/main  main\n".toList),
        parseUpdateLine line = some ("main".toList, t)) :=
  ⟨by decide,
   (fastForwardBranches_characterization
      ("From .\n1111111..2222222  refs/heads/main  main\n".toList)
      [⟨"main".toList, "origin/main".toList⟩]).2.2
      ⟨"main".toList, "origin/main".toList⟩ (by decide)⟩

/-- C3 counterexample: on the spec's example output — whose update line is
`+ 1111111..2222222  refs/heads/main  main` — the first
whitespace-delimited token is `+`, which contains no `..`, so the loop
skips the line and the result is NOT `["main"]`. -/
theorem fastForward_example_result_not_main :
    fastForwardBranches
        ("From .\n+ 1111111..2222222  refs/heads/main  main\n".toList)
        [⟨"main".toList, "origin/main".toList⟩, ⟨"dev".toList, "origin/dev".toList⟩]
      ≠ [⟨"main".toList, "origin/main".toList⟩] := by
  decide

/-- C3 (amended): on the spec's example output the result is `[]`, because
the line's first token `+` carries no range separator; when the range token
comes first (`1111111..2222222  refs/heads/main  main`) the result is
exactly `["main"]` — `"dev"` excluded — and the accumulated map gives
`main` the new id `2222222`. -/
theorem fastForward_example_amended :
    fastForwardBranches
        ("From .\n+ 1111111..2222222  refs/heads/main  main\n".toList)
        [⟨"main".toList, "origin/main".toList⟩, ⟨"dev".toList, "origin/dev".toList⟩]
      = [] ∧
    fastForwardBranches
        ("From .\n1111111..2222222  refs/heads/main  main\n".toList)
        [⟨"main".toList, "origin/main".toList⟩, ⟨"dev".toList, "origin/dev".toList⟩]
      = [⟨"main".toList, "origin/main".toList⟩] ∧
    (updatedBranches
        ("From .\n1111111..2222222  refs/heads/main  main\n".toList)).lookup
      "main".toList = some "2222222".toList := by
  refine ⟨by decide, by decide, by decide⟩
